import Mathlib

/-!
Verification of the journal application (src/main.py): the entry persistence
layer around the class named EntryParser, and the inline image markup engine
in the methods render_images, insert_image_to_text and resize_image_action
of the class named JournalApp. Python strings are modeled as List Char.
-/

/-- Python str.isspace members that str.strip removes, restricted to the ASCII
whitespace characters (space, tab, newline, carriage return, vertical tab,
form feed). Non-ASCII whitespace is not modeled. -/
def isWs (c : Char) : Bool :=
  c == ' ' || c == '\t' || c == '\n' || c == '\r' || c == '\x0b' || c == '\x0c'

/-- ASCII decimal digit, modeling the regex class of backslash-d on the inputs
that occur here (non-ASCII Unicode digits are not modeled). -/
def isDig (c : Char) : Bool := c.isDigit

/-- Remove trailing whitespace, half of Python str.strip. -/
def dropTrail (s : List Char) : List Char := (s.reverse.dropWhile isWs).reverse

/-- Python str.strip: remove leading and trailing whitespace. -/
def pyStrip (s : List Char) : List Char := dropTrail (s.dropWhile isWs)

/-- Match a literal character sequence at the front of a list, returning the
remainder when the whole literal is present. -/
def dropLit : List Char → List Char → Option (List Char)
  | [], s => some s
  | _ :: _, [] => none
  | c :: cs, d :: ds => if c = d then dropLit cs ds else none

/-- The literal run that opens a separator line in SEPARATOR_PATTERN,
three dashes and a space. -/
def litSepL : List Char := ['-', '-', '-', ' ']

/-- The literal run that closes a separator line in SEPARATOR_PATTERN,
a space and three dashes. -/
def litSepR : List Char := [' ', '-', '-', '-']

/-- A bounded greedy digit repetition of the regex, followed in the pattern
by a non-digit literal: take the maximal digit run and check its length
bounds. Returns the run and the remainder. -/
def takeRun (lo hi : Nat) (s : List Char) : Option (List Char × List Char) :=
  let d := s.takeWhile isDig
  if lo ≤ d.length ∧ d.length ≤ hi then some (d, s.dropWhile isDig) else none

/-- The literal dash between the digit runs of the date pattern. -/
def expectDash : List Char → Option (List Char)
  | '-' :: r => some r
  | _ => none

/-- The date part of SEPARATOR_PATTERN: 2 to 4 digits, a dash, 1 to 2 digits,
a dash, 1 to 2 digits. Greedy bounded digit repetition followed by a
non-digit literal is equivalent to taking the maximal digit run and checking
its length, which is what takeRun does. Returns the captured date text and
the remainder after it. -/
def matchDate (s : List Char) : Option (List Char × List Char) :=
  (takeRun 2 4 s).bind fun p1 =>
    (expectDash p1.2).bind fun r2 =>
      (takeRun 1 2 r2).bind fun p2 =>
        (expectDash p2.2).bind fun r4 =>
          (takeRun 1 2 r4).bind fun p3 =>
            some (p1.1 ++ '-' :: p2.1 ++ '-' :: p3.1, p3.2)

/-- Match SEPARATOR_PATTERN anchored at the front of the text: the literal
dashes-space, the captured date, the literal space-dashes. Returns the
captured date and the remainder after the whole match. -/
def matchSepAt (s : List Char) : Option (List Char × List Char) :=
  (dropLit litSepL s).bind fun r1 =>
    (matchDate r1).bind fun p =>
      (dropLit litSepR p.2).bind fun r3 => some (p.1, r3)

/-- One entry as the parser produces it: the captured date text and the
stripped content text. -/
structure Entry where
  date : List Char
  content : List Char
deriving DecidableEq, Repr

/-- Fueled left-to-right scan implementing re.split on SEPARATOR_PATTERN with
its one capture group: text segments interleaved with captured dates. The
fuel only serves structural recursion; it is set to the text length, which
always suffices because a match consumes at least one character. -/
def splitSepF : Nat → List Char → List (List Char)
  | 0, s => [s]
  | f + 1, s =>
    match matchSepAt s with
    | some (d, r) => [] :: d :: splitSepF f r
    | none =>
      match s with
      | [] => [[]]
      | c :: rest => List.modifyHead (fun h => c :: h) (splitSepF f rest)

/-- re.split of the journal text on SEPARATOR_PATTERN. -/
def splitSep (s : List Char) : List (List Char) := splitSepF s.length s

/-- The loop over parts with indices 1, 3, 5, ... in get_entries: each date
part is paired with the following content part, the content is stripped, and
a date with no following part yields nothing. -/
def pairUp : List (List Char) → List Entry
  | d :: c :: rest => { date := d, content := pyStrip c } :: pairUp rest
  | _ => []

/-- EntryParser.get_entries on the raw file text: split on the separator
pattern, drop the part before the first separator (the start index is 1 in
both branches of the conditional in the source), pair dates with contents,
and return newest first by reversing. -/
def get_entries (content : List Char) : List Entry :=
  (pairUp (splitSep content).tail).reverse

/-- EntryParser.get_entries including the existence check on JOURNAL_FILE:
a missing file is modeled as none and yields the empty list. -/
def get_entries_opt : Option (List Char) → List Entry
  | none => []
  | some content => get_entries content

/-- The separator line text written for a date, dashes-space, date,
space-dashes. -/
def sepOf (d : List Char) : List Char := litSepL ++ d ++ litSepR

/-- The block written for one entry by save_all_entries: two newlines, the
separator line, a newline, then the content. -/
def serializeEntry (e : Entry) : List Char :=
  '\n' :: '\n' :: sepOf e.date ++ '\n' :: e.content

/-- EntryParser.save_all_entries: write the entries in reverse of the
in-memory newest-first order, each as its block, with no trailing
separator. -/
def save_all_entries (entries : List Entry) : List Char :=
  (entries.reverse.map serializeEntry).flatten

/-- The shape of a captured date: year, month and day digit runs with the
length bounds of SEPARATOR_PATTERN. -/
def datePieces (y m dd : List Char) : Prop :=
  (∀ c ∈ y, isDig c = true) ∧ (∀ c ∈ m, isDig c = true) ∧ (∀ c ∈ dd, isDig c = true) ∧
    2 ≤ y.length ∧ y.length ≤ 4 ∧ 1 ≤ m.length ∧ m.length ≤ 2 ∧
    1 ≤ dd.length ∧ dd.length ≤ 2

/-- A date text that the separator pattern captures when standing alone. -/
def dateShape (d : List Char) : Prop := matchDate d = some (d, [])

instance decDateShape (d : List Char) : Decidable (dateShape d) :=
  inferInstanceAs (Decidable (matchDate d = some (d, [])))

/-- No separator match starts at any position of the text. -/
def NoSep (s : List Char) : Prop := ∀ i, matchSepAt (s.drop i) = none

/-- No separator match starts at any position of a content text, the
condition for an entry content to survive the round trip unchanged. -/
def WellFormedEntry (e : Entry) : Prop :=
  dateShape e.date ∧ pyStrip e.content = e.content ∧ NoSep e.content

/-- The part list that re.split produces on a serialized entry list: the
leading two newlines form the discarded first part, each date is captured,
and each content is carried inside the following text part. Used to state
the round-trip argument. -/
def partsOf : List Entry → List (List Char)
  | [] => [[]]
  | e :: l =>
    ['\n', '\n'] :: e.date :: List.modifyHead (fun h => '\n' :: e.content ++ h) (partsOf l)

/-- One run of the render plan that render_images materializes over the text
widget: a run of visible text, or an image. An image run records the literal
marker text occupying its source span (hidden by the elide tag but still the
authoritative text), the asset name, the display width and the display
height. -/
inductive Run where
  | text : List Char → Run
  | image : (marker : List Char) → (name : List Char) → (w : Int) → (h : Int) → Run
deriving DecidableEq, Repr

/-- The literal run that opens an image marker. -/
def markerLit : List Char := ['<', '<', 'I', 'M', 'G', ':']

/-- The lazy regex body after the marker opening: the shortest run of
non-newline characters up to the first two consecutive closing angle
brackets. Returns the inner text and the remainder after the brackets; fails
at a newline or at the end of the text, matching a dot that does not cross
lines and a search chunk that ends at the line end. -/
def findInner : List Char → Option (List Char × List Char)
  | [] => none
  | c :: rest =>
    if c = '\n' then none
    else if c = '>' ∧ rest.head? = some '>' then some ([], rest.tail)
    else (findInner rest).map (fun p => (c :: p.1, p.2))

/-- Split at the first vertical bar: the text before it, and the rest after
it when a bar is present. -/
def breakBar : List Char → List Char × Option (List Char)
  | [] => ([], none)
  | c :: r =>
    if c = '|' then ([], some r)
    else (c :: (breakBar r).1, (breakBar r).2)

/-- Accumulate the value of a digit run; fails at the first non-digit. -/
def digitsVal (acc : Nat) : List Char → Option Nat
  | [] => some acc
  | c :: r => if isDig c then digitsVal (acc * 10 + (c.toNat - 48)) r else none

/-- Python int() applied to a string, on the inputs relevant here: strip
surrounding whitespace, an optional sign, then a nonempty run of ASCII
decimal digits. Digit-group underscores and non-ASCII digits are not
modeled. -/
def pyInt (s : List Char) : Option Int :=
  match pyStrip s with
  | '+' :: ds => if ds = [] then none else (digitsVal 0 ds).map (fun n => (n : Int))
  | '-' :: ds => if ds = [] then none else (digitsVal 0 ds).map (fun n => -(n : Int))
  | ds => if ds = [] then none else (digitsVal 0 ds).map (fun n => (n : Int))

/-- The filename and width extraction of render_images on the inner text of
a marker: width defaults to 400 and the filename to the whole inner text;
when a bar is present the filename is the text before the first bar, and the
width is int() of the text between the first and second bars if that
succeeds, the default 400 otherwise (the filename assignment precedes the
failing int() call in the source, so it is kept on failure). -/
def parseInner (inner : List Char) : List Char × Int :=
  match breakBar inner with
  | (f, none) => (f, 400)
  | (f, some r) =>
    match pyInt (breakBar r).1 with
    | some w => (f, w)
    | none => (f, 400)

/-- The display height computed in insert_image_to_text from the natural
size of the asset: the original height times the ratio of display width to
original width, truncated toward zero. Python computes this with float
arithmetic and int(); it is modeled as exact rational arithmetic with final
truncation. -/
def insert_image_height (ow oh : Nat) (w : Int) : Int :=
  Int.tdiv ((oh : Int) * w) (ow : Int)

/-- The asset directory IMAGES_DIR: asset names paired with the natural
pixel width and height the decoded image would report. A name that is
absent models a missing file. -/
def AssetStore : Type := List (List Char × Nat × Nat)

/-- Emit the pending visible text as a run; the accumulator is kept
reversed. No empty text run is emitted. -/
def flushText (acc : List Char) : List Run :=
  if acc = [] then [] else [Run.text acc.reverse]

/-- Fueled scan loop of render_images over the widget text: search for the
marker opening; on a complete marker on one line, extract filename and
width; when the asset exists, the marker span becomes an image run (its text
elided) and scanning resumes after the span; when the asset is missing, the
marker text is left in place as visible text and scanning also resumes after
the span; an incomplete marker opening is left as visible text and the
search resumes one character later. The fuel is set to the text length,
which suffices because every step consumes at least one character. -/
def render_imagesF (store : AssetStore) : Nat → List Char → List Char → List Run
  | 0, acc, s => flushText acc ++ (if s = [] then [] else [Run.text s])
  | _ + 1, acc, [] => flushText acc
  | f + 1, acc, c :: rest =>
    match dropLit markerLit (c :: rest) with
    | some r =>
      match findInner r with
      | some (inner, rest2) =>
        match List.lookup (parseInner inner).1 store with
        | some (ow, oh) =>
          flushText acc ++
            Run.image (markerLit ++ inner ++ ['>', '>']) (parseInner inner).1
              (parseInner inner).2 (insert_image_height ow oh (parseInner inner).2) ::
            render_imagesF store f [] rest2
        | none =>
          render_imagesF store f ((markerLit ++ inner ++ ['>', '>']).reverse ++ acc) rest2
      | none => render_imagesF store f (c :: acc) rest
    | none => render_imagesF store f (c :: acc) rest

/-- render_images of JournalApp as a pure scan: the render plan for a
content text against an asset store. -/
def render_images (store : AssetStore) (content : List Char) : List Run :=
  render_imagesF store content.length [] content

/-- Reading the widget text back for saving: text runs contribute their
text, image runs contribute the elided marker text of their source span. -/
def flatten (plan : List Run) : List Char :=
  (plan.map (fun r => match r with | Run.text t => t | Run.image m _ _ _ => m)).flatten

/-- Fueled companion of the scan loop deciding whether every well-formed
marker of the text names an asset present in the store. -/
def assetsOkF (store : AssetStore) : Nat → List Char → Bool
  | 0, _ => true
  | _ + 1, [] => true
  | f + 1, c :: rest =>
    match dropLit markerLit (c :: rest) with
    | some r =>
      match findInner r with
      | some (inner, rest2) =>
        match List.lookup (parseInner inner).1 store with
        | some _ => assetsOkF store f rest2
        | none => false
      | none => assetsOkF store f rest
    | none => assetsOkF store f rest

/-- Every well-formed marker of the content names an asset that exists. -/
def assetsOk (store : AssetStore) (content : List Char) : Bool :=
  assetsOkF store content.length content

/-- The error kinds of the resize operation named in the specification. -/
inductive ResizeError where
  | invalidWidth : ResizeError
  | markerNotFound : ResizeError
deriving DecidableEq, Repr

/-- The width dialog of resize_image_action: simpledialog.askinteger with
minvalue 50 and maxvalue 1000 is modeled as accepting the requested value
exactly when it lies within the bounds and failing otherwise, since the
dialog refuses to complete with an out-of-range value. -/
def askinteger (minv maxv w : Int) : Option Int :=
  if minv ≤ w ∧ w ≤ maxv then some w else none

/-- re.search for the first complete image marker: try the anchored match at
every position left to right and return the inner text of the first
success. -/
def searchMarker : List Char → Option (List Char)
  | [] => none
  | c :: rest =>
    match dropLit markerLit (c :: rest) with
    | some r =>
      match findInner r with
      | some (inner, _) => some inner
      | none => searchMarker rest
    | none => searchMarker rest

/-- Decimal digits of a natural number, fueled for structural recursion. -/
def natToCharsF : Nat → Nat → List Char
  | 0, _ => []
  | f + 1, n =>
    if n < 10 then [Char.ofNat (48 + n)]
    else natToCharsF f (n / 10) ++ [Char.ofNat (48 + n % 10)]

/-- Decimal rendering of a natural number. -/
def natToChars (n : Nat) : List Char := natToCharsF (n + 1) n

/-- Decimal rendering of an integer as the f-string interpolation writes
it. -/
def intToChars (i : Int) : List Char :=
  if i < 0 then '-' :: natToChars i.natAbs else natToChars i.toNat

/-- resize_image_action on the text of a tagged marker span and a requested
width: the filename is the part before the first bar of the first marker
found in the span text (the empty name when no marker matches, as in the
source), the width dialog enforces the 50 to 1000 bounds, and on success the
span is replaced by a new marker with the same filename and the new width.
The early return on an empty tag range (the marker-not-found case) precedes
this and is not modeled here. -/
def resize_image_action (text_content : List Char) (req : Int) :
    Except ResizeError (List Char) :=
  let filename :=
    match searchMarker text_content with
    | some inner => (breakBar inner).1
    | none => []
  match askinteger 50 1000 req with
  | none => Except.error ResizeError.invalidWidth
  | some w => Except.ok (markerLit ++ filename ++ '|' :: intToChars w ++ ['>', '>'])

/-! Helper lemmas about the separator matcher and the splitter. -/

theorem dropLit_sound : ∀ {l s r : List Char}, dropLit l s = some r → s = l ++ r := by
  intro l
  induction l with
  | nil => intro s r h; simpa [dropLit] using h
  | cons c cs ih =>
    intro s r h
    cases s with
    | nil => simp [dropLit] at h
    | cons d ds =>
      simp only [dropLit] at h
      split at h
      · next heq => subst heq; simpa using ih h
      · exact absurd h (by simp)

theorem dropLit_self : ∀ (l r : List Char), dropLit l (l ++ r) = some r := by
  intro l
  induction l with
  | nil => intro r; rfl
  | cons c cs ih => intro r; simp [dropLit, ih]

theorem takeWhile_append_all {a b : List Char} (ha : ∀ c ∈ a, isDig c = true)
    (hb : ∀ c, b.head? = some c → isDig c = false) :
    (a ++ b).takeWhile isDig = a := by
  induction a with
  | nil =>
    cases b with
    | nil => rfl
    | cons x xs => simp [List.takeWhile_cons, hb x rfl]
  | cons c cs ih =>
    simp only [List.cons_append, List.takeWhile_cons, ha c (by simp), if_true]
    rw [ih (fun x hx => ha x (by simp [hx]))]

theorem dropWhile_append_all {a b : List Char} (ha : ∀ c ∈ a, isDig c = true)
    (hb : ∀ c, b.head? = some c → isDig c = false) :
    (a ++ b).dropWhile isDig = b := by
  induction a with
  | nil =>
    cases b with
    | nil => rfl
    | cons x xs => simp [List.dropWhile_cons, hb x rfl]
  | cons c cs ih =>
    simp only [List.cons_append, List.dropWhile_cons, ha c (by simp), if_true]
    exact ih (fun x hx => ha x (by simp [hx]))

theorem takeRun_sound {lo hi : Nat} {s d r : List Char}
    (h : takeRun lo hi s = some (d, r)) :
    s = d ++ r ∧ (∀ c ∈ d, isDig c = true) ∧ lo ≤ d.length ∧ d.length ≤ hi := by
  simp only [takeRun] at h
  split at h
  · next hb =>
    simp only [Option.some.injEq, Prod.mk.injEq] at h
    obtain ⟨hd, hr⟩ := h
    subst hd hr
    exact ⟨(List.takeWhile_append_dropWhile isDig s).symm,
      fun c hc => List.mem_takeWhile_imp hc, hb.1, hb.2⟩
  · exact absurd h (by simp)

theorem takeRun_complete {lo hi : Nat} {a b : List Char}
    (ha : ∀ c ∈ a, isDig c = true) (hb : ∀ c, b.head? = some c → isDig c = false)
    (hlo : lo ≤ a.length) (hhi : a.length ≤ hi) :
    takeRun lo hi (a ++ b) = some (a, b) := by
  simp only [takeRun, takeWhile_append_all ha hb, dropWhile_append_all ha hb]
  rw [if_pos ⟨hlo, hhi⟩]

theorem expectDash_sound : ∀ {s r : List Char}, expectDash s = some r → s = '-' :: r := by
  intro s r h
  match s with
  | [] => exact absurd h (by simp [expectDash])
  | '-' :: t => simpa [expectDash] using h
  | c :: t =>
    by_cases hc : c = '-'
    · subst hc; simpa [expectDash] using h
    · exact absurd h (by simp [expectDash, hc])

theorem matchDate_of_pieces {y m dd r : List Char} (hp : datePieces y m dd)
    (hr : ∀ c, r.head? = some c → isDig c = false) :
    matchDate ((y ++ '-' :: m ++ '-' :: dd) ++ r) = some (y ++ '-' :: m ++ '-' :: dd, r) := by
  obtain ⟨hy, hm, hd, ly1, ly2, lm1, lm2, ld1, ld2⟩ := hp
  have assoc : (y ++ '-' :: m ++ '-' :: dd) ++ r = y ++ '-' :: (m ++ '-' :: (dd ++ r)) := by
    simp
  have hdash : ∀ c : Char, (('-' :: (m ++ '-' :: (dd ++ r))) : List Char).head? = some c →
      isDig c = false := by
    intro c hc
    simp at hc
    subst hc
    decide
  have hdash2 : ∀ c : Char, (('-' :: (dd ++ r)) : List Char).head? = some c →
      isDig c = false := by
    intro c hc
    simp at hc
    subst hc
    decide
  rw [assoc]
  simp only [matchDate, takeRun_complete hy hdash ly1 ly2, Option.some_bind, expectDash,
    takeRun_complete hm hdash2 lm1 lm2, takeRun_complete hd hr ld1 ld2]

theorem matchDate_sound {s d r : List Char} (h : matchDate s = some (d, r)) :
    ∃ y m dd, d = y ++ '-' :: m ++ '-' :: dd ∧ s = d ++ r ∧ datePieces y m dd := by
  simp only [matchDate] at h
  cases h1 : takeRun 2 4 s with
  | none => simp only [h1, Option.none_bind] at h; exact Option.noConfusion h
  | some p1 =>
    obtain ⟨y, r1⟩ := p1
    simp only [h1, Option.some_bind] at h
    cases h2 : expectDash r1 with
    | none => simp only [h2, Option.none_bind] at h; exact Option.noConfusion h
    | some r2 =>
      simp only [h2, Option.some_bind] at h
      cases h3 : takeRun 1 2 r2 with
      | none => simp only [h3, Option.none_bind] at h; exact Option.noConfusion h
      | some p2 =>
        obtain ⟨m, r3⟩ := p2
        simp only [h3, Option.some_bind] at h
        cases h4 : expectDash r3 with
        | none => simp only [h4, Option.none_bind] at h; exact Option.noConfusion h
        | some r4 =>
          simp only [h4, Option.some_bind] at h
          cases h5 : takeRun 1 2 r4 with
          | none => simp only [h5, Option.none_bind] at h; exact Option.noConfusion h
          | some p3 =>
            obtain ⟨dd, r5⟩ := p3
            simp only [h5, Option.some_bind, Option.some.injEq, Prod.mk.injEq] at h
            obtain ⟨hdate, hrest⟩ := h
            obtain ⟨e1, hy, ly1, ly2⟩ := takeRun_sound h1
            obtain ⟨e3, hm, lm1, lm2⟩ := takeRun_sound h3
            obtain ⟨e5, hdd, ld1, ld2⟩ := takeRun_sound h5
            have e2 := expectDash_sound h2
            have e4 := expectDash_sound h4
            refine ⟨y, m, dd, hdate.symm, ?_, hy, hm, hdd, ly1, ly2, lm1, lm2, ld1, ld2⟩
            subst hdate hrest
            rw [e1, e2, e3, e4, e5]
            simp

theorem dateShape_of_pieces {y m dd : List Char} (hp : datePieces y m dd) :
    dateShape (y ++ '-' :: m ++ '-' :: dd) := by
  have := matchDate_of_pieces (r := []) hp (by intro c hc; simp at hc)
  simpa [dateShape] using this

theorem matchDate_append {d r : List Char} (hd : dateShape d)
    (hr : ∀ c, r.head? = some c → isDig c = false) :
    matchDate (d ++ r) = some (d, r) := by
  obtain ⟨y, m, dd, hdef, _, hp⟩ := matchDate_sound hd
  subst hdef
  exact matchDate_of_pieces hp hr

theorem dateShape_no_newline {d : List Char} (hd : dateShape d) : '\n' ∉ d := by
  obtain ⟨y, m, dd, hdef, _, hy, hm, hdd, _⟩ := matchDate_sound hd
  subst hdef
  intro hmem
  simp only [List.mem_append, List.mem_cons] at hmem
  casesm* _ ∨ _
  all_goals first
    | exact absurd (hy _ (by assumption)) (by decide)
    | exact absurd (hm _ (by assumption)) (by decide)
    | exact absurd (hdd _ (by assumption)) (by decide)
    | exact absurd (by assumption : '\n' = '-') (by decide)

theorem matchSepAt_of_shape {d : List Char} (hd : dateShape d) (r : List Char) :
    matchSepAt (sepOf d ++ r) = some (d, r) := by
  have e1 : sepOf d ++ r = litSepL ++ (d ++ (litSepR ++ r)) := by simp [sepOf]
  have h1 : dropLit litSepL (sepOf d ++ r) = some (d ++ (litSepR ++ r)) := by
    rw [e1]; exact dropLit_self litSepL _
  have h2 : matchDate (d ++ (litSepR ++ r)) = some (d, litSepR ++ r) :=
    matchDate_append hd (by intro c hc; simp [litSepR] at hc; subst hc; decide)
  have h3 : dropLit litSepR (litSepR ++ r) = some r := dropLit_self litSepR r
  simp only [matchSepAt, h1, Option.some_bind, h2, h3]

theorem matchSepAt_sound {s d r : List Char} (h : matchSepAt s = some (d, r)) :
    dateShape d ∧ s = sepOf d ++ r := by
  simp only [matchSepAt] at h
  cases h1 : dropLit litSepL s with
  | none => simp only [h1, Option.none_bind] at h; exact Option.noConfusion h
  | some r1 =>
    simp only [h1, Option.some_bind] at h
    cases h2 : matchDate r1 with
    | none => simp only [h2, Option.none_bind] at h; exact Option.noConfusion h
    | some p =>
      obtain ⟨d2, r2⟩ := p
      simp only [h2, Option.some_bind] at h
      cases h3 : dropLit litSepR r2 with
      | none => simp only [h3, Option.none_bind] at h; exact Option.noConfusion h
      | some r3 =>
        simp only [h3, Option.some_bind] at h
        simp only [Option.some.injEq, Prod.mk.injEq] at h
        obtain ⟨hd2, hr3⟩ := h
        subst hd2 hr3
        obtain ⟨y, m, dd, hdef, he, hp⟩ := matchDate_sound h2
        constructor
        · rw [hdef]; exact dateShape_of_pieces hp
        · rw [dropLit_sound h1, he, dropLit_sound h3, sepOf]
          simp

theorem sepOf_no_newline {d : List Char} (hd : dateShape d) : '\n' ∉ sepOf d := by
  intro hmem
  simp only [sepOf, List.mem_append] at hmem
  rcases hmem with (hmem | hmem) | hmem
  · exact absurd hmem (by decide)
  · exact dateShape_no_newline hd hmem
  · exact absurd hmem (by decide)

theorem matchSepAt_nil : matchSepAt [] = none := rfl

theorem matchSepAt_newline (s : List Char) : matchSepAt ('\n' :: s) = none := rfl

theorem matchSepAt_length {s d r : List Char} (h : matchSepAt s = some (d, r)) :
    r.length < s.length := by
  obtain ⟨_, he⟩ := matchSepAt_sound h
  rw [he]
  simp [sepOf, litSepL, litSepR]
  omega

theorem splitSepF_nil : ∀ f, splitSepF f [] = [[]]
  | 0 => rfl
  | _ + 1 => rfl

theorem splitSepF_congr : ∀ f1 : Nat, ∀ f2 : Nat, ∀ s : List Char,
    s.length ≤ f1 → s.length ≤ f2 → splitSepF f1 s = splitSepF f2 s := by
  intro f1
  induction f1 with
  | zero =>
    intro f2 s h1 _
    have : s = [] := List.length_eq_zero.mp (Nat.le_zero.mp h1)
    subst this
    rw [splitSepF_nil, splitSepF_nil]
  | succ f ih =>
    intro f2 s h1 h2
    cases f2 with
    | zero =>
      have : s = [] := List.length_eq_zero.mp (Nat.le_zero.mp h2)
      subst this
      rw [splitSepF_nil, splitSepF_nil]
    | succ g =>
      cases hm : matchSepAt s with
      | some p =>
        obtain ⟨d, r⟩ := p
        have hr := matchSepAt_length hm
        simp only [splitSepF, hm]
        rw [ih g r (by omega) (by omega)]
      | none =>
        cases s with
        | nil => rw [splitSepF_nil, splitSepF_nil]
        | cons c rest =>
          simp only [splitSepF, hm]
          have hc : rest.length ≤ f := by simp at h1; omega
          have hg : rest.length ≤ g := by simp at h2; omega
          rw [ih g rest hc hg]

theorem splitSep_nil : splitSep [] = [[]] := rfl

theorem splitSep_cons_none {c : Char} {s : List Char} (h : matchSepAt (c :: s) = none) :
    splitSep (c :: s) = List.modifyHead (fun x => c :: x) (splitSep s) := by
  show splitSepF (s.length + 1) (c :: s) = _
  simp only [splitSepF, h]
  rfl

theorem splitSep_match {s d r : List Char} (h : matchSepAt s = some (d, r)) :
    splitSep s = [] :: d :: splitSep r := by
  cases s with
  | nil => rw [matchSepAt_nil] at h; exact Option.noConfusion h
  | cons c s0 =>
    have hr := matchSepAt_length h
    show splitSepF (s0.length + 1) (c :: s0) = _
    simp only [splitSepF, h]
    rw [splitSepF_congr s0.length r.length r (by simp at hr; omega) (le_refl _)]
    rfl

theorem noSep_of_lt {s : List Char} (h : ∀ i < s.length, matchSepAt (s.drop i) = none) :
    NoSep s := by
  intro i
  by_cases hi : i < s.length
  · exact h i hi
  · rw [List.drop_eq_nil_of_le (by omega)]
    exact matchSepAt_nil

theorem splitSepF_noSep : ∀ f : Nat, ∀ s : List Char, NoSep s → splitSepF f s = [s] := by
  intro f
  induction f with
  | zero => intro s _; rfl
  | succ f ih =>
    intro s h
    have h0 : matchSepAt s = none := by simpa using h 0
    cases s with
    | nil => rw [splitSepF_nil]
    | cons c rest =>
      simp only [splitSepF, h0]
      rw [ih rest (fun i => by simpa using h (i + 1))]
      rfl

theorem splitSep_noSep {s : List Char} (h : NoSep s) : splitSep s = [s] :=
  splitSepF_noSep s.length s h

theorem splitSep_append {p t : List Char}
    (h : ∀ i, i < p.length → matchSepAt ((p ++ t).drop i) = none) :
    splitSep (p ++ t) = List.modifyHead (fun x => p ++ x) (splitSep t) := by
  induction p with
  | nil =>
    cases hl : splitSep t <;> simp [List.modifyHead, hl]
  | cons c p ih =>
    have h0 : matchSepAt (c :: (p ++ t)) = none := by simpa using h 0 (by simp)
    rw [List.cons_append, splitSep_cons_none h0,
      ih (fun i hi => by simpa using h (i + 1) (by simpa using Nat.succ_lt_succ hi))]
    cases splitSep t <;> simp [List.modifyHead]

theorem noSpan {c t : List Char} (hc : NoSep c)
    (ht : t = [] ∨ t.head? = some '\n') :
    ∀ j, j < c.length → matchSepAt ((c ++ t).drop j) = none := by
  intro j hj
  cases hx : matchSepAt ((c ++ t).drop j) with
  | none => rfl
  | some pr =>
    exfalso
    obtain ⟨d, r⟩ := pr
    obtain ⟨hd, heq⟩ := matchSepAt_sound hx
    have hdrop : (c ++ t).drop j = c.drop j ++ t := by
      rw [List.drop_append_eq_append_drop, Nat.sub_eq_zero_of_le (le_of_lt hj), List.drop_zero]
    rw [hdrop] at heq
    set a := c.drop j with ha
    have hal : a.length = c.length - j := by rw [ha, List.length_drop]
    cases le_or_lt (sepOf d).length a.length with
    | inl hle =>
      have hL : (a ++ t).take (sepOf d).length = a.take (sepOf d).length := by
        rw [List.take_append_eq_append_take, Nat.sub_eq_zero_of_le hle, List.take_zero,
          List.append_nil]
      have hR : (sepOf d ++ r).take (sepOf d).length = sepOf d := by
        rw [List.take_append_eq_append_take, Nat.sub_self, List.take_zero,
          List.append_nil, List.take_of_length_le (le_refl _)]
      have h1 : a.take (sepOf d).length = sepOf d := by
        rw [← hL, heq, hR]
      have h2 : a = sepOf d ++ a.drop (sepOf d).length := by
        conv_lhs => rw [← List.take_append_drop (sepOf d).length a]
        rw [h1]
      have h3 := matchSepAt_of_shape hd (a.drop (sepOf d).length)
      rw [← h2] at h3
      have h4 := hc j
      rw [← ha] at h4
      rw [h4] at h3
      exact Option.noConfusion h3
    | inr hlt =>
      have h1 : sepOf d = a ++ t.take ((sepOf d).length - a.length) := by
        have := congrArg (List.take (sepOf d).length) heq
        rw [List.take_append_eq_append_take, List.take_of_length_le (le_of_lt hlt),
          List.take_append_eq_append_take, Nat.sub_self, List.take_zero,
          List.append_nil, List.take_of_length_le (le_refl _)] at this
        exact this.symm
      have htne : t ≠ [] := by
        intro he
        subst he
        rw [List.take_nil, List.append_nil] at h1
        have := congrArg List.length h1
        omega
      obtain ⟨x, t', rfl⟩ : ∃ x t', t = x :: t' := by
        cases t with
        | nil => exact absurd rfl htne
        | cons x t' => exact ⟨x, t', rfl⟩
      have hx' : x = '\n' := by
        rcases ht with ht | ht
        · exact absurd ht htne
        · simpa using ht
      subst hx'
      have hmem : '\n' ∈ sepOf d := by
        rw [h1]
        have hpos : 1 ≤ (sepOf d).length - a.length := by omega
        cases hk : (sepOf d).length - a.length with
        | zero => omega
        | succ k =>
          simp [List.take_cons]
      exact sepOf_no_newline hd hmem

/-! Lemmas about stripping. -/

theorem dropWhile_length_le (p : Char → Bool) (l : List Char) :
    (l.dropWhile p).length ≤ l.length := by
  induction l with
  | nil => simp
  | cons a l ih =>
    rw [List.dropWhile_cons]
    by_cases hp : p a = true
    · rw [if_pos hp]
      simp
      omega
    · rw [if_neg hp]

theorem dropWhile_eq_self_of_length {p : Char → Bool} {l : List Char}
    (h : (l.dropWhile p).length = l.length) : l.dropWhile p = l := by
  induction l with
  | nil => rfl
  | cons a l ih =>
    rw [List.dropWhile_cons] at h ⊢
    by_cases hp : p a = true
    · exfalso
      rw [if_pos hp] at h
      have := dropWhile_length_le p l
      simp at h
      omega
    · rw [if_neg hp]

theorem strip_fix_parts {c : List Char} (h : pyStrip c = c) :
    c.dropWhile isWs = c ∧ c.reverse.dropWhile isWs = c.reverse := by
  have hl1 : (c.dropWhile isWs).length ≤ c.length := dropWhile_length_le isWs c
  have hl2 : (pyStrip c).length ≤ (c.dropWhile isWs).length := by
    simp only [pyStrip, dropTrail, List.length_reverse]
    have := dropWhile_length_le isWs (c.dropWhile isWs).reverse
    simpa using this
  rw [h] at hl2
  have h1 : c.dropWhile isWs = c := dropWhile_eq_self_of_length (le_antisymm hl1 hl2)
  refine ⟨h1, ?_⟩
  have h2 : dropTrail c = c := by
    have h3 := h
    rw [pyStrip, h1] at h3
    exact h3
  have h4 := congrArg List.reverse h2
  rw [dropTrail, List.reverse_reverse] at h4
  exact h4

theorem pyStrip_cons_nl (s : List Char) : pyStrip ('\n' :: s) = pyStrip s := by
  simp [pyStrip, List.dropWhile_cons, show isWs '\n' = true from rfl]

theorem pyStrip_newline_wrap {c : List Char} (h : pyStrip c = c) :
    pyStrip ('\n' :: c ++ ['\n', '\n']) = c := by
  obtain ⟨h1, h2⟩ := strip_fix_parts h
  have e0 : ('\n' :: c ++ ['\n', '\n'] : List Char) = '\n' :: (c ++ ['\n', '\n']) := rfl
  rw [e0, pyStrip_cons_nl]
  cases c with
  | nil => rfl
  | cons a c' =>
    have ha : isWs a = false := by
      rw [List.dropWhile_cons] at h1
      by_cases hx : isWs a = true
      · exfalso
        rw [if_pos hx] at h1
        have hle := dropWhile_length_le isWs c'
        have := congrArg List.length h1
        simp at this
        omega
      · simpa using hx
    have hdw : ((a :: c') ++ ['\n', '\n'] : List Char).dropWhile isWs =
        (a :: c') ++ ['\n', '\n'] := by
      rw [List.cons_append, List.dropWhile_cons, if_neg (by simp [ha])]
    rw [pyStrip, hdw, dropTrail, List.reverse_append]
    have e1 : (['\n', '\n'] : List Char).reverse ++ (a :: c').reverse =
        '\n' :: '\n' :: (a :: c').reverse := by simp
    rw [e1, List.dropWhile_cons, if_pos (show isWs '\n' = true from rfl),
      List.dropWhile_cons, if_pos (show isWs '\n' = true from rfl), h2,
      List.reverse_reverse]

/-! Lemmas assembling the round trip of serialization and parsing. -/

theorem serial_head (l : List Entry) :
    (l.map serializeEntry).flatten = [] ∨
      ((l.map serializeEntry).flatten).head? = some '\n' := by
  cases l with
  | nil => exact Or.inl rfl
  | cons e l' => right; simp [serializeEntry]

theorem splitSep_serial : ∀ l : List Entry, (∀ e ∈ l, WellFormedEntry e) →
    splitSep ((l.map serializeEntry).flatten) = partsOf l := by
  intro l
  induction l with
  | nil => intro _; rfl
  | cons e l' ih =>
    intro h
    obtain ⟨hdate, hstrip, hnosep⟩ := h e (by simp)
    have ihl := ih (fun x hx => h x (by simp [hx]))
    have e0 : ((e :: l').map serializeEntry).flatten =
        '\n' :: '\n' ::
          (sepOf e.date ++ ('\n' :: (e.content ++ (l'.map serializeEntry).flatten))) := by
      simp [serializeEntry]
    rw [e0, splitSep_cons_none (matchSepAt_newline _), splitSep_cons_none (matchSepAt_newline _),
      splitSep_match (matchSepAt_of_shape hdate _),
      splitSep_cons_none (matchSepAt_newline _),
      splitSep_append (noSpan hnosep (serial_head l')), ihl]
    show List.modifyHead _ (List.modifyHead _ ([] :: e.date :: _)) = partsOf (e :: l')
    simp only [partsOf, List.modifyHead]
    generalize partsOf l' = P
    cases P <;> simp [List.modifyHead]

theorem pairUp_partsOf : ∀ l : List Entry, (∀ e ∈ l, WellFormedEntry e) →
    pairUp (partsOf l).tail = l := by
  intro l
  induction l with
  | nil => intro _; rfl
  | cons e l' ih =>
    intro h
    obtain ⟨_, hstrip, _⟩ := h e (by simp)
    have ihl := ih (fun x hx => h x (by simp [hx]))
    cases l' with
    | nil =>
      simp only [partsOf, List.modifyHead, List.tail_cons, pairUp, List.append_nil]
      rw [pyStrip_cons_nl, hstrip]
    | cons e2 l2 =>
      simp only [partsOf, List.modifyHead, List.tail_cons, pairUp] at ihl ⊢
      rw [pyStrip_newline_wrap hstrip, ihl]

/-! Claim theorems for the persistence layer. -/

/-- C1 (counterexample): the round trip fails as the claim states it. The
singleton list whose single content carries a trailing space has
non-overlapping dates, yet parsing the serialized text yields a different
list, because get_entries strips each content. -/
theorem c1_counterexample :
    get_entries (save_all_entries [{ date := "2024-1-5".toList, content := "x ".toList }]) ≠
      [{ date := "2024-1-5".toList, content := "x ".toList }] := by decide

/-- C1 (amended): for every ordered list of entries whose dates match the
separator date format and whose contents are whitespace-trimmed and contain
no separator-shaped substring, parsing the text produced by serializing the
list returns the same list: same dates, same contents, same newest-first
order. Date distinctness is not needed. -/
theorem c1_round_trip (entries : List Entry)
    (h : ∀ e ∈ entries, WellFormedEntry e) :
    get_entries (save_all_entries entries) = entries := by
  rw [save_all_entries, get_entries,
    splitSep_serial entries.reverse (fun e he => h e (List.mem_reverse.mp he)),
    pairUp_partsOf entries.reverse (fun e he => h e (List.mem_reverse.mp he)),
    List.reverse_reverse]

/-- C1 (witness): the amended round trip at a concrete two-entry list. -/
theorem c1_round_trip_witness :
    get_entries (save_all_entries
      [{ date := "2024-1-6".toList, content := "World".toList },
       { date := "2024-1-5".toList, content := "Hello".toList }]) =
      [{ date := "2024-1-6".toList, content := "World".toList },
       { date := "2024-1-5".toList, content := "Hello".toList }] := by
  apply c1_round_trip
  intro e he
  simp only [List.mem_cons, List.not_mem_nil, or_false] at he
  rcases he with rfl | rfl
  · exact ⟨by decide, by decide, noSep_of_lt (by decide)⟩
  · exact ⟨by decide, by decide, noSep_of_lt (by decide)⟩

/-- C3: parsing performs no date validation: any date text matching the
separator shape (2 to 4 digit year, 1 to 2 digit month and day) is captured
and preserved verbatim as an opaque string in the date field of the
resulting entry. -/
theorem c3_dates_opaque (d c : List Char) (hd : dateShape d) (hc : NoSep c) :
    get_entries (sepOf d ++ '\n' :: c) = [{ date := d, content := pyStrip c }] := by
  rw [get_entries, splitSep_match (matchSepAt_of_shape hd ('\n' :: c)),
    splitSep_cons_none (matchSepAt_newline c), splitSep_noSep hc]
  simp [pairUp, List.modifyHead, pyStrip_cons_nl]

/-- C3 (witness): the calendar-invalid date text 99-99-99 is captured and
preserved unchanged. -/
theorem c3_dates_opaque_witness :
    get_entries (sepOf ("99-99-99".toList) ++ '\n' :: "Hello".toList) =
      [{ date := "99-99-99".toList, content := "Hello".toList }] := by
  have h1 := c3_dates_opaque ("99-99-99".toList) ("Hello".toList) (by decide)
    (noSep_of_lt (by decide))
  have h2 : pyStrip ("Hello".toList) = "Hello".toList := by decide
  rw [h2] at h1
  exact h1

/-- C4 (counterexample): a text that is exactly one separator line with no
following content yields one entry with that date and empty content, so the
claim that the trailing fragment is dropped fails: the guard on the index in
the source never fires because re.split always returns an odd number of
parts. -/
theorem c4_counterexample :
    get_entries ("--- 2024-1-5 ---".toList) =
        [{ date := "2024-1-5".toList, content := [] }] ∧
      get_entries ("--- 2024-1-5 ---".toList) ≠ [] := by decide

/-- C4 (amended): for every input text ending in a separator line with no
following content and with no separator match starting earlier, parsing
produces an entry with that separator date and empty content; the trailing
fragment is not dropped. -/
theorem c4_trailing_separator (p d : List Char) (hd : dateShape d)
    (hp : ∀ i, i < p.length → matchSepAt ((p ++ sepOf d).drop i) = none) :
    get_entries (p ++ sepOf d) = [{ date := d, content := [] }] := by
  rw [get_entries, splitSep_append hp]
  have h0 := matchSepAt_of_shape hd []
  rw [List.append_nil] at h0
  rw [splitSep_match h0, splitSep_nil]
  rfl

/-- C4 (witness): the amended statement at a concrete text ending in a bare
separator line. -/
theorem c4_trailing_separator_witness :
    get_entries ("junk\n".toList ++ sepOf ("2024-1-5".toList)) =
      [{ date := "2024-1-5".toList, content := [] }] :=
  c4_trailing_separator ("junk\n".toList) ("2024-1-5".toList) (by decide) (by decide)

/-- C9: when the journal file does not exist, parsing returns the empty list
rather than raising an error. -/
theorem c9_missing_file : get_entries_opt none = [] := rfl

/-- C10: all text preceding the first separator line is unconditionally
discarded by parsing: the result on a text with a leading segment in which
no separator match starts equals the result on the rest alone, so the
leading segment, empty or not, never appears in any returned entry. -/
theorem c10_leading_discarded (p t : List Char)
    (hp : ∀ i, i < p.length → matchSepAt ((p ++ t).drop i) = none) :
    get_entries (p ++ t) = get_entries t := by
  rw [get_entries, get_entries, splitSep_append hp]
  cases splitSep t <;> simp [List.modifyHead]

/-- C10 (witness): a non-empty leading prose segment is discarded. -/
theorem c10_leading_discarded_witness :
    get_entries ("some prose\n".toList ++ "--- 2024-1-5 ---\nHi".toList) =
      get_entries ("--- 2024-1-5 ---\nHi".toList) :=
  c10_leading_discarded ("some prose\n".toList) ("--- 2024-1-5 ---\nHi".toList) (by decide)

/-! Lemmas about the markup engine. -/

theorem findInner_sound : ∀ {r inner rest : List Char},
    findInner r = some (inner, rest) → r = inner ++ '>' :: '>' :: rest := by
  intro r
  induction r with
  | nil => intro inner rest h; exact absurd h (by simp [findInner])
  | cons c r' ih =>
    intro inner rest h
    simp only [findInner] at h
    by_cases hn : c = '\n'
    · rw [if_pos hn] at h
      exact Option.noConfusion h
    · rw [if_neg hn] at h
      by_cases hg : c = '>' ∧ r'.head? = some '>'
      · rw [if_pos hg] at h
        obtain ⟨hg1, hg2⟩ := hg
        subst hg1
        cases r' with
        | nil => exact Option.noConfusion hg2
        | cons c2 r2 =>
          have hc2 : c2 = '>' := by simpa using hg2
          subst hc2
          simp only [Option.some.injEq, Prod.mk.injEq] at h
          obtain ⟨h1, h2⟩ := h
          subst h1
          subst h2
          rfl
      · rw [if_neg hg] at h
        cases hf : findInner r' with
        | none => rw [hf] at h; exact Option.noConfusion h
        | some p =>
          obtain ⟨i2, rest2⟩ := p
          rw [hf] at h
          simp at h
          obtain ⟨h1, h2⟩ := h
          subst h2
          rw [← h1]
          rw [ih hf]
          rfl

theorem flatten_flushText (acc : List Char) : flatten (flushText acc) = acc.reverse := by
  by_cases h : acc = [] <;> simp [flushText, flatten, h]

theorem flatten_append (a b : List Run) : flatten (a ++ b) = flatten a ++ flatten b := by
  simp [flatten]

theorem flatten_renderF : ∀ (store : AssetStore) (f : Nat) (acc s : List Char),
    flatten (render_imagesF store f acc s) = acc.reverse ++ s := by
  intro store f
  induction f with
  | zero =>
    intro acc s
    rw [show render_imagesF store 0 acc s =
        flushText acc ++ (if s = [] then [] else [Run.text s]) from rfl,
      flatten_append, flatten_flushText]
    by_cases hs : s = [] <;> simp [flatten, hs]
  | succ f ih =>
    intro acc s
    cases s with
    | nil =>
      rw [show render_imagesF store (f + 1) acc [] = flushText acc from rfl,
        flatten_flushText, List.append_nil]
    | cons c rest =>
      cases hdl : dropLit markerLit (c :: rest) with
      | none =>
        simp only [render_imagesF, hdl]
        rw [ih]
        simp
      | some r =>
        cases hfi : findInner r with
        | none =>
          simp only [render_imagesF, hdl, hfi]
          rw [ih]
          simp
        | some p =>
          obtain ⟨inner, rest2⟩ := p
          have hsrc : c :: rest = markerLit ++ inner ++ '>' :: '>' :: rest2 := by
            rw [dropLit_sound hdl, findInner_sound hfi]
            simp
          cases hlk : List.lookup (parseInner inner).1 store with
          | some q =>
            obtain ⟨ow, oh⟩ := q
            simp only [render_imagesF, hdl, hfi, hlk]
            rw [flatten_append, flatten_flushText]
            rw [show flatten (Run.image (markerLit ++ inner ++ ['>', '>'])
                (parseInner inner).1 (parseInner inner).2
                (insert_image_height ow oh (parseInner inner).2) ::
                render_imagesF store f [] rest2) =
              (markerLit ++ inner ++ ['>', '>']) ++
                flatten (render_imagesF store f [] rest2) from by simp [flatten]]
            rw [ih]
            rw [hsrc]
            simp
          | none =>
            simp only [render_imagesF, hdl, hfi, hlk]
            rw [ih]
            rw [hsrc]
            simp

theorem renderF_image_height : ∀ (store : AssetStore) (f : Nat) (acc s m n : List Char)
    (w h : Int), Run.image m n w h ∈ render_imagesF store f acc s →
    ∃ ow oh : Nat, List.lookup n store = some (ow, oh) ∧ h = insert_image_height ow oh w := by
  intro store f
  induction f with
  | zero =>
    intro acc s m n w h hmem
    by_cases ha : acc = [] <;> by_cases hs : s = [] <;>
      simp [render_imagesF, flushText, ha, hs] at hmem
  | succ f ih =>
    intro acc s m n w h hmem
    cases s with
    | nil =>
      by_cases ha : acc = [] <;> simp [render_imagesF, flushText, ha] at hmem
    | cons c rest =>
      cases hdl : dropLit markerLit (c :: rest) with
      | none =>
        simp only [render_imagesF, hdl] at hmem
        exact ih _ _ _ _ _ _ hmem
      | some r =>
        cases hfi : findInner r with
        | none =>
          simp only [render_imagesF, hdl, hfi] at hmem
          exact ih _ _ _ _ _ _ hmem
        | some p =>
          obtain ⟨inner, rest2⟩ := p
          cases hlk : List.lookup (parseInner inner).1 store with
          | some q =>
            obtain ⟨ow, oh⟩ := q
            simp only [render_imagesF, hdl, hfi, hlk] at hmem
            rw [List.mem_append, List.mem_cons] at hmem
            rcases hmem with hmem | hmem | hmem
            · exfalso
              by_cases ha : acc = [] <;> simp [flushText, ha] at hmem
            · injection hmem with h1 h2 h3 h4
              subst h2 h3 h4
              exact ⟨ow, oh, hlk, rfl⟩
            · exact ih _ _ _ _ _ _ hmem
          | none =>
            simp only [render_imagesF, hdl, hfi, hlk] at hmem
            exact ih _ _ _ _ _ _ hmem

theorem breakBar_no_bar : ∀ {l : List Char}, ('|' : Char) ∉ l → breakBar l = (l, none) := by
  intro l
  induction l with
  | nil => intro _; rfl
  | cons c r ih =>
    intro h
    have hc : ¬(c = '|') := by intro e; exact h (by simp [e])
    simp only [breakBar, if_neg hc, ih (fun hm => h (by simp [hm]))]

theorem breakBar_bar {f : List Char} (w : List Char) (hf : ('|' : Char) ∉ f) :
    breakBar (f ++ '|' :: w) = (f, some w) := by
  induction f with
  | nil => simp [breakBar]
  | cons c r ih =>
    have hc : ¬(c = '|') := by intro e; exact hf (by simp [e])
    have ihr := ih (fun hm => hf (by simp [hm]))
    simp [breakBar, hc, ihr]

/-! Claim theorems for the markup engine. -/

/-- C2: for every content text in which every referenced asset exists,
flattening the render plan produced by scanning the content yields the
content unchanged, and re-scanning the flattened text yields the same plan:
no marker is double-processed or duplicated. -/
theorem c2_scan_flatten (store : AssetStore) (content : List Char)
    (_h : assetsOk store content = true) :
    flatten (render_images store content) = content ∧
      render_images store (flatten (render_images store content)) =
        render_images store content := by
  have h1 : flatten (render_images store content) = content := by
    have h2 := flatten_renderF store content.length [] content
    simpa [render_images] using h2
  exact ⟨h1, by rw [h1]⟩

/-- C2 (witness): the round trip at a concrete content whose single asset
exists. -/
theorem c2_scan_flatten_witness :
    assetsOk [("x.png".toList, (200, 100))] ("A<<IMG:x.png|300>>B".toList) = true ∧
      flatten (render_images [("x.png".toList, (200, 100))] ("A<<IMG:x.png|300>>B".toList)) =
        "A<<IMG:x.png|300>>B".toList :=
  ⟨by decide, (c2_scan_flatten [("x.png".toList, (200, 100))]
    ("A<<IMG:x.png|300>>B".toList) (by decide)).1⟩

/-- C5: the resize operation rejects out-of-range widths as an error rather
than clamping: widths 49 and 1001 fail with the invalid-width error, widths
50 and 1000 succeed and produce the rewritten marker. -/
theorem c5_resize_width_bounds :
    resize_image_action ("<<IMG:x.png|300>>".toList) 49 =
        Except.error ResizeError.invalidWidth ∧
      resize_image_action ("<<IMG:x.png|300>>".toList) 1001 =
        Except.error ResizeError.invalidWidth ∧
      resize_image_action ("<<IMG:x.png|300>>".toList) 50 =
        Except.ok ("<<IMG:x.png|50>>".toList) ∧
      resize_image_action ("<<IMG:x.png|300>>".toList) 1000 =
        Except.ok ("<<IMG:x.png|1000>>".toList) :=
  ⟨rfl, rfl, rfl, rfl⟩

/-- C6 (counterexample): with the asset absent, the scan does not produce the
plan with the marker text removed: the claimed plan of two bare text runs is
not what the code yields. -/
theorem c6_counterexample :
    render_images [] ("A<<IMG:x.png|300>>B".toList) ≠
      [Run.text ("A".toList), Run.text ("B".toList)] := by decide

/-- C6 (amended): with the asset absent, the scan consumes the marker without
producing an image run and without raising an error, but leaves the marker
text visible in place: the plan is the single text run carrying the whole
content, marker included. -/
theorem c6_missing_asset :
    render_images [] ("A<<IMG:x.png|300>>B".toList) =
      [Run.text ("A<<IMG:x.png|300>>B".toList)] := by decide

/-- C7: a marker with an absent width field, or a malformed one rejected by
int(), is rendered at the default width 400 with the asset name taken from
before the first bar; the marker is not rejected. The last part evaluates a
whole scan at a bar-free marker with an existing 200 by 100 asset. -/
theorem c7_width_default :
    (∀ inner : List Char, ('|' : Char) ∉ inner → parseInner inner = (inner, 400)) ∧
      (∀ f w : List Char, ('|' : Char) ∉ f → pyInt (breakBar w).1 = none →
        parseInner (f ++ '|' :: w) = (f, 400)) ∧
      render_images [("x.png".toList, (200, 100))] ("A<<IMG:x.png>>B".toList) =
        [Run.text ("A".toList),
         Run.image ("<<IMG:x.png>>".toList) ("x.png".toList) 400 200,
         Run.text ("B".toList)] := by
  refine ⟨?_, ?_, by decide⟩
  · intro inner h
    simp only [parseInner, breakBar_no_bar h]
  · intro f w hf hw
    simp only [parseInner, breakBar_bar w hf, hw]

/-- C7 (witness): the default width at a bar-free inner text and at a
malformed width field. -/
theorem c7_width_default_witness :
    parseInner ("x.png".toList) = ("x.png".toList, 400) ∧
      parseInner ("x.png".toList ++ '|' :: "abc".toList) = ("x.png".toList, 400) :=
  ⟨c7_width_default.1 ("x.png".toList) (by decide),
    c7_width_default.2.1 ("x.png".toList) ("abc".toList) (by decide) (by decide)⟩

/-- C8: the displayed height of a rendered image with a present asset is the
original height scaled by the ratio of display width to original width: the
200 by 100 asset rendered at width 300 gets height 150, and in general every
image run of a plan carries the height computed by insert_image_height from
the natural size that the store reports for its asset name. -/
theorem c8_aspect_ratio :
    (render_images [("x.png".toList, (200, 100))] ("A<<IMG:x.png|300>>B".toList) =
      [Run.text ("A".toList),
       Run.image ("<<IMG:x.png|300>>".toList) ("x.png".toList) 300 150,
       Run.text ("B".toList)]) ∧
    ∀ (store : AssetStore) (content m n : List Char) (w h : Int),
      Run.image m n w h ∈ render_images store content →
      ∃ ow oh : Nat, List.lookup n store = some (ow, oh) ∧ h = insert_image_height ow oh w :=
  ⟨by decide, fun store content m n w h hmem =>
    renderF_image_height store content.length [] content m n w h hmem⟩

/-- C8 (witness): the general height invariant applied to the plan of a
concrete content over a 100 by 50 asset rendered at width 150. -/
theorem c8_aspect_ratio_witness :
    ∃ ow oh : Nat,
      List.lookup ("y.png".toList) [("y.png".toList, (100, 50))] = some (ow, oh) ∧
        (75 : Int) = insert_image_height ow oh 150 :=
  c8_aspect_ratio.2 [("y.png".toList, (100, 50))] ("<<IMG:y.png|150>>".toList)
    ("<<IMG:y.png|150>>".toList) ("y.png".toList) 150 75 (by decide)

example : get_entries ("\n\n--- 2024-1-5 ---\nHello".toList) =
    [{ date := "2024-1-5".toList, content := "Hello".toList }] := by decide

example : get_entries ("--- 2024-1-5 ---".toList) =
    [{ date := "2024-1-5".toList, content := [] }] := by decide

example : get_entries_opt none = [] := rfl

example :
    get_entries (save_all_entries
      [{ date := "2024-1-6".toList, content := "World".toList },
       { date := "2024-1-5".toList, content := "Hello".toList }]) =
      [{ date := "2024-1-6".toList, content := "World".toList },
       { date := "2024-1-5".toList, content := "Hello".toList }] := by decide

example :
    render_images [("x.png".toList, (200, 100))] ("A<<IMG:x.png|300>>B".toList) =
      [Run.text ("A".toList),
       Run.image ("<<IMG:x.png|300>>".toList) ("x.png".toList) 300 150,
       Run.text ("B".toList)] := by decide

example :
    render_images [] ("A<<IMG:x.png|300>>B".toList) =
      [Run.text ("A<<IMG:x.png|300>>B".toList)] := by decide

example :
    render_images [("x.png".toList, (200, 100))] ("A<<IMG:x.png|abc>>B".toList) =
      [Run.text ("A".toList),
       Run.image ("<<IMG:x.png|abc>>".toList) ("x.png".toList) 400 200,
       Run.text ("B".toList)] := by decide

example :
    flatten (render_images [] ("A<<IMG:x.png|300>>B".toList)) =
      "A<<IMG:x.png|300>>B".toList := by decide

example :
    resize_image_action ("<<IMG:x.png|300>>".toList) 49 =
      Except.error ResizeError.invalidWidth := rfl

example :
    resize_image_action ("<<IMG:x.png|300>>".toList) 50 =
      Except.ok ("<<IMG:x.png|50>>".toList) := rfl

example : pyInt (" 300 ".toList) = some 300 := rfl

example : pyInt ("".toList) = none := rfl
